import Mathlib

/-!
A shallow embedding of `app/scripts/convert.py`, a utility that rewrites
keycode identifiers inside keymap files by regular-expression substitution,
together with proofs about the embedded definitions.

Text is modelled as `List Char` (the sequence of Unicode scalar values a
Python `str` holds); file bytes are modelled as `List Nat` with a strict
UTF-8 encoder/decoder mirroring `bytes.decode("utf-8")` / `str.encode("utf-8")`.

The regular expression built per substitution in `format_file` is
  (&(inc_dec_[kc]p|\w\w) \w*)\b OLD \b
with OLD interpolated verbatim.  The embedding implements the semantics of
this pattern family directly, treating OLD as a literal string (the source
interpolates OLD without escaping; for tokens containing pattern
metacharacters the original behaviour is undefined and outside this model).
Python `\w` is modelled as ASCII letters, digits and underscore, which covers
every keycode identifier the tool is meant for.
-/

/-- Python regex word character, restricted to ASCII: letter, digit or underscore. -/
def isWordChar (c : Char) : Bool :=
  c.isAlphanum || c = '_'

/-- Wordness of the first character of a list; the empty list (end of string)
counts as non-word, as Python word boundaries do at the string edge. -/
def headIsWord : List Char → Bool
  | [] => false
  | c :: _ => isWordChar c

/-- Wordness of the last character of a list; empty counts as non-word. -/
def lastIsWord (l : List Char) : Bool :=
  match l.getLast? with
  | some c => isWordChar c
  | none => false

/-- Attempt to match `\b OLD \b` at the current position. `prevIsWord` is the
wordness of the character immediately before the position.  Returns `some 0`
(zero further `\w*` characters consumed) on success.  For empty OLD the two
boundary assertions coincide in a single `\b` check. -/
def tryOld (old rest : List Char) (prevIsWord : Bool) : Option Nat :=
  match old with
  | [] => if prevIsWord != headIsWord rest then some 0 else none
  | o :: _ =>
    if (prevIsWord != isWordChar o) && old.isPrefixOf rest
        && (lastIsWord old != headIsWord (rest.drop old.length)) then
      some 0
    else none

/-- Match `\w*\b OLD \b` against `rest` with Python greedy backtracking:
the longest `\w*` consumption that lets the rest of the pattern succeed wins.
Returns the number of characters `\w*` consumed. -/
def matchTail (old : List Char) (rest : List Char) (prevIsWord : Bool) : Option Nat :=
  match rest with
  | [] => tryOld old [] prevIsWord
  | c :: cs =>
    if isWordChar c then
      match matchTail old cs true with
      | some k => some (k + 1)
      | none => tryOld old (c :: cs) prevIsWord
    else tryOld old (c :: cs) prevIsWord

/-- Match the anchor alternation `inc_dec_[kc]p|\w\w` at the start of `cs`,
returning the number of characters it consumes.  Committing to the
ten-character alternative when it is a prefix is faithful to the regex
engine: backtracking it into the two-character alternative would require a
space as third character, contradicting the `inc_dec_` prefix. -/
def matchAnchorLen (cs : List Char) : Option Nat :=
  if "inc_dec_kp".toList.isPrefixOf cs || "inc_dec_cp".toList.isPrefixOf cs then
    some 10
  else
    match cs with
    | c1 :: c2 :: _ => if isWordChar c1 && isWordChar c2 then some 2 else none
    | _ => none

/-- Match the part of the pattern after the leading `&` against `cs`:
anchor alternation, a single space, then `\w*\b OLD \b`.  On success returns
`(g, m)` where, counting from the start of `cs`, `g` is the extent of capture
group 1 (anchor, space and `\w*` prefix — the leading `&` itself is accounted
for by the caller) and `m` is the extent of the whole match. -/
def matchAfterAmp (old cs : List Char) : Option (Nat × Nat) :=
  match matchAnchorLen cs with
  | none => none
  | some alen =>
    match cs.drop alen with
    | ' ' :: afterSpace =>
      match matchTail old afterSpace false with
      | some k => some (alen + 1 + k, alen + 1 + k + old.length)
      | none => none
    | _ => none

/-- `re.search` of the pattern over a line: does any position start a match?
A match necessarily starts at a literal `&`. -/
def hasMatch (old : List Char) : List Char → Bool
  | [] => false
  | c :: cs =>
    if c = '&' then ((matchAfterAmp old cs).isSome || hasMatch old cs)
    else hasMatch old cs

/-- Fuel-driven core of `re.sub` with replacement `\1 ++ new`: scan left to
right, replace each leftmost non-overlapping match by capture group 1
followed by the new token, and continue after the match.  Fuel at least the
length of the input is always sufficient because a match consumes at least
its leading `&`. -/
def subScanFuel (old nw : List Char) : Nat → List Char → List Char
  | _, [] => []
  | 0, l => l
  | f + 1, c :: cs =>
    if c = '&' then
      match matchAfterAmp old cs with
      | some (g, m) => c :: (cs.take g ++ nw ++ subScanFuel old nw f (cs.drop m))
      | none => c :: subScanFuel old nw f cs
    else c :: subScanFuel old nw f cs

/-- `old_keycode_regex.sub(replacement_keycode, line)` with replacement
`\1` followed by the new keycode. -/
def subScan (old nw l : List Char) : List Char :=
  subScanFuel old nw l.length l

/-- Python `str.split` on a single newline character: no collapsing, no
normalization, the result is always nonempty. -/
def splitNl : List Char → List (List Char)
  | [] => [[]]
  | c :: cs =>
    if c = '\n' then [] :: splitNl cs
    else
      match splitNl cs with
      | l :: ls => (c :: l) :: ls
      | [] => [[c]]

/-- Python `"\n".join`. -/
def joinNl : List (List Char) → List Char
  | [] => []
  | [l] => l
  | l :: l2 :: ls => l ++ '\n' :: joinNl (l2 :: ls)

/-- Apostrophe character, used in the literal abort messages. -/
def apos : Char := Char.ofNat 39

/-- The message printed when a matched old keycode has no replacement:
`{path} contains {old}, which currently has no replacement!`. -/
def noReplMsg (path old : List Char) : List Char :=
  path ++ " contains ".toList ++ old ++ ", which currently has no replacement!".toList

/-- The dry-run message:
`Would have replaced {old} with {new} on {n} lines.`. -/
def wouldMsg (old nw : List Char) (n : Nat) : List Char :=
  "Would have replaced ".toList ++ old ++ " with ".toList ++ nw
    ++ " on ".toList ++ (Nat.repr n).toList ++ " lines.".toList

/-- Result of one `format_file` call: the content written back (the source
always writes the joined lines back at the end of the function) and the
console messages printed, in order. -/
structure FormatResult where
  written : List Char
  output : List (List Char)
deriving DecidableEq, Repr

/-- One iteration of the substitution loop of `format_file`, acting on the
current lines and accumulated output.  `lines_to_update` (a list of indices
in the source) is modelled by filtering the lines with `hasMatch`; updating
the listed indices with `re.sub` is modelled as mapping the conditional
substitution over all lines, which touches exactly the same lines. -/
def stepSub (dryRun : Bool) (path : List Char)
    (st : List (List Char) × List (List Char))
    (sub : List Char × Option (List Char)) :
    List (List Char) × List (List Char) :=
  if (st.1.filter (fun l => hasMatch sub.1 l)).isEmpty then st
  else
    match sub.2 with
    | none => (st.1, st.2 ++ [noReplMsg path sub.1])
    | some nw =>
      if dryRun then
        (st.1, st.2 ++ [wouldMsg sub.1 nw (st.1.filter (fun l => hasMatch sub.1 l)).length])
      else (st.1.map (fun l => if hasMatch sub.1 l then subScan sub.1 nw l else l), st.2)

/-- `format_file` on the decoded content of the keymap file: split on
newlines, run every substitution in table order, join and write back.
The write-back is unconditional in the source, so `written` is always the
final joined content. -/
def format_file (dryRun : Bool) (path content : List Char)
    (subs : List (List Char × Option (List Char))) : FormatResult :=
  let r := subs.foldl (stepSub dryRun path) (splitNl content, [])
  ⟨joinNl r.1, r.2⟩

/-- The message (if any) that one substitution contributes for fixed lines:
nothing when no line matches, the no-replacement diagnostic when the new
token is absent, otherwise the dry-run count message.  Used to state what a
dry-run invocation prints. -/
def subMsg (path : List Char) (lines : List (List Char))
    (sub : List Char × Option (List Char)) : Option (List Char) :=
  if (lines.filter (fun l => hasMatch sub.1 l)).isEmpty then none
  else
    match sub.2 with
    | none => some (noReplMsg path sub.1)
    | some nw => some (wouldMsg sub.1 nw (lines.filter (fun l => hasMatch sub.1 l)).length)

/-- JSON values as `json.load` produces them.  Numbers are modelled as
integers (the substitution table schema only ever holds strings and null). -/
inductive JValue where
  | null : JValue
  | bool : Bool → JValue
  | num : Int → JValue
  | str : List Char → JValue
  | arr : List JValue → JValue
  | obj : List (List Char × JValue) → JValue

/-- Lookup in a Python dict built from a JSON object: with duplicate keys the
last binding wins. -/
def jlookup (fields : List (List Char × JValue)) (k : List Char) : Option JValue :=
  fields.foldl (fun acc kv => if kv.1 = k then some kv.2 else acc) none

/-- Python `s[k]` on a JSON value: a missing key raises `KeyError` and a
non-object raises `TypeError`; both are modelled as the error case. -/
def getItem (s : JValue) (k : List Char) : Except Unit JValue :=
  match s with
  | .obj fields =>
    match jlookup fields k with
    | some v => .ok v
    | none => .error ()
  | _ => .error ()

/-- The list comprehension `[(s["from"], s["to"]) for s in substitution_json]`
over the elements of a JSON array: elements are processed in order and the
first failing item access aborts the whole comprehension. -/
def loadPairs : List JValue → Except Unit (List (JValue × JValue))
  | [] => .ok []
  | s :: rest =>
    match getItem s "from".toList with
    | .error e => .error e
    | .ok f =>
      match getItem s "to".toList with
      | .error e => .error e
      | .ok t =>
        match loadPairs rest with
        | .error e => .error e
        | .ok ps => .ok ((f, t) :: ps)

/-- `load_substitutions` after `json.load`: iterate the parsed value and read
`s["from"]` and `s["to"]` of every element.  Iterating an empty object or
empty string yields the empty list in Python; iterating any other non-array
value fails (TypeError on the iteration or on the item access). -/
def load_substitutions : JValue → Except Unit (List (JValue × JValue))
  | .arr l => loadPairs l
  | .obj [] => .ok []
  | .str [] => .ok []
  | _ => .error ()

/-- Python `str()` of a JSON-derived value, as used by the f-string
interpolation of the old/new keycodes.  Container values are not given a
faithful rendering here: the table schema holds only strings and null and no
claim depends on the container case. -/
def pyStr : JValue → List Char
  | .null => "None".toList
  | .bool true => "True".toList
  | .bool false => "False".toList
  | .num n => (Int.repr n).toList
  | .str s => s
  | .arr _ => "<container>".toList
  | .obj _ => "<container>".toList

/-- Bridge from a loaded `(from, to)` pair to the strings `format_file`
consumes: the old keycode as interpolated into the pattern, and `none`
exactly when `new_keycode is None` holds in the source. -/
def toSub (p : JValue × JValue) : List Char × Option (List Char) :=
  (pyStr p.1, match p.2 with | .null => none | v => some (pyStr v))

/-- UTF-8 encoding of one Unicode scalar value given as a `Nat`. -/
def utf8EncodeCp (n : Nat) : List Nat :=
  if n < 0x80 then [n]
  else if n < 0x800 then [0xC0 + n / 64, 0x80 + n % 64]
  else if n < 0x10000 then [0xE0 + n / 4096, 0x80 + n / 64 % 64, 0x80 + n % 64]
  else [0xF0 + n / 262144, 0x80 + n / 4096 % 64, 0x80 + n / 64 % 64, 0x80 + n % 64]

/-- `str.encode("utf-8")` of one character. -/
def utf8EncodeChar (c : Char) : List Nat :=
  utf8EncodeCp c.toNat

/-- `str.encode("utf-8")`: byte sequence of a string, each byte a `Nat`. -/
def utf8Encode (s : List Char) : List Nat :=
  (s.map utf8EncodeChar).flatten

/-- Continuation byte handling for a two-byte UTF-8 sequence headed by `b`. -/
def utf8Cont2 (b : Nat) : List Nat → Option (Nat × List Nat)
  | [] => none
  | b2 :: bs2 =>
    if 0x80 ≤ b2 ∧ b2 < 0xC0 then some ((b - 0xC0) * 64 + (b2 - 0x80), bs2) else none

/-- Continuation bytes of a three-byte UTF-8 sequence headed by `b`; the
second-byte window excludes overlong forms (`E0`) and surrogates (`ED`). -/
def utf8Cont3 (b : Nat) : List Nat → Option (Nat × List Nat)
  | [] => none
  | [_] => none
  | b2 :: b3 :: bs3 =>
    if (if b = 0xE0 then 0xA0 else 0x80) ≤ b2 ∧ b2 < (if b = 0xED then 0xA0 else 0xC0)
        ∧ 0x80 ≤ b3 ∧ b3 < 0xC0 then
      some ((b - 0xE0) * 4096 + (b2 - 0x80) * 64 + (b3 - 0x80), bs3)
    else none

/-- Continuation bytes of a four-byte UTF-8 sequence headed by `b`; the
second-byte window excludes overlong forms (`F0`) and values past U+10FFFF
(`F4`). -/
def utf8Cont4 (b : Nat) : List Nat → Option (Nat × List Nat)
  | [] => none
  | [_] => none
  | [_, _] => none
  | b2 :: b3 :: b4 :: bs4 =>
    if (if b = 0xF0 then 0x90 else 0x80) ≤ b2 ∧ b2 < (if b = 0xF4 then 0x90 else 0xC0)
        ∧ 0x80 ≤ b3 ∧ b3 < 0xC0 ∧ 0x80 ≤ b4 ∧ b4 < 0xC0 then
      some ((b - 0xF0) * 262144 + (b2 - 0x80) * 4096 + (b3 - 0x80) * 64 + (b4 - 0x80), bs4)
    else none

/-- Strict UTF-8 decoding of one scalar value from the front of a byte list,
rejecting overlong forms, surrogates and out-of-range values exactly as
Python `bytes.decode("utf-8")` does.  Returns the code point and the
remaining bytes. -/
def utf8Decode1 : List Nat → Option (Nat × List Nat)
  | [] => none
  | b :: bs =>
    if b < 0x80 then some (b, bs)
    else if b < 0xC2 then none
    else if b < 0xE0 then utf8Cont2 b bs
    else if b < 0xF0 then utf8Cont3 b bs
    else if b < 0xF5 then utf8Cont4 b bs
    else none

/-- Fuel-driven full decode to a list of code points; fuel bounded by the
byte count always suffices since every step consumes at least one byte. -/
def utf8DecodeFuel : Nat → List Nat → Option (List Nat)
  | _, [] => some []
  | 0, _ :: _ => none
  | f + 1, b :: bs =>
    match utf8Decode1 (b :: bs) with
    | none => none
    | some (n, rest) => (utf8DecodeFuel f rest).map (fun ns => n :: ns)

/-- Decode a byte list to the list of code points, or `none` on invalid UTF-8. -/
def utf8DecodeCps (bytes : List Nat) : Option (List Nat) :=
  utf8DecodeFuel bytes.length bytes

/-- `bytes.decode("utf-8")`: the decoded string, or `none` when the decode
raises `UnicodeDecodeError`. -/
def utf8Decode (bytes : List Nat) : Option (List Char) :=
  (utf8DecodeCps bytes).map (List.map Char.ofNat)

/-- Split a path on every slash, keeping empty segments. -/
def splitSlash : List Char → List (List Char)
  | [] => [[]]
  | c :: cs =>
    if c = '/' then [] :: splitSlash cs
    else
      match splitSlash cs with
      | l :: ls => (c :: l) :: ls
      | [] => [[c]]

/-- The final path component, as `pathlib` computes the name: empty and
single-dot segments are dropped during parsing, and the last remaining
segment (empty for a bare root or empty path) is the name. -/
def pathName (p : List Char) : List Char :=
  ((splitSlash p).filter (fun seg => decide (seg ≠ [] ∧ seg ≠ ['.']))).getLastD []

/-- The part of a name from its last dot to the end (dot included), when a
dot occurs at all. -/
def lastDotSeg : List Char → Option (List Char)
  | [] => none
  | c :: cs =>
    if c = '.' then
      match lastDotSeg cs with
      | some s => some s
      | none => some ('.' :: cs)
    else lastDotSeg cs

/-- `pathlib.PurePath.suffix`: the extension of the final component, empty
when the name has no dot, starts with its only dot, or ends in a dot. -/
def pathSuffix (p : List Char) : List Char :=
  let n := pathName p
  match lastDotSeg n with
  | some s => if 2 ≤ s.length ∧ s.length < n.length then s else []
  | none => []

/-- The file-system facts and library results `main` consults: existence
tests, the parse result of `json.load` on a path, raw file bytes, and the
paths produced by `glob("**/*.keymap")` on a directory, in traversal order
(pairwise distinct for a real file system). -/
structure FS where
  isFile : List Char → Bool
  isDir : List Char → Bool
  json : List Char → Except Unit JValue
  read : List Char → List Nat
  glob : List Char → List (List Char)

/-- `format_file` from raw bytes: decode (propagating failure), rewrite, and
encode the written content.  Returns the written bytes and the printed
messages, or `none` when the decode raises and the run dies. -/
def format_fileB (dryRun : Bool) (path : List Char) (bytes : List Nat)
    (subs : List (List Char × Option (List Char))) :
    Option (List Nat × List (List Char)) :=
  match utf8Decode bytes with
  | none => none
  | some content =>
    let r := format_file dryRun path content subs
    some (utf8Encode r.written, r.output)

/-- Outcome of a whole run: every `(path, bytes)` write performed, the
console output in order, and whether the run finished without an uncaught
exception. -/
structure RunResult where
  writes : List (List Char × List Nat)
  output : List (List Char)
  ok : Bool
deriving DecidableEq, Repr

/-- The message printed before each file in directory mode:
`Sorting out {path}....`. -/
def sortingMsg (p : List Char) : List Char :=
  "Sorting out ".toList ++ p ++ "....".toList

/-- Directory mode: process the globbed files in order; an undecodable file
aborts the run after its progress message, leaving earlier writes done. -/
def runFiles (dryRun : Bool) (subs : List (List Char × Option (List Char)))
    (fs : FS) : List (List Char) → RunResult
  | [] => ⟨[], [], true⟩
  | f :: rest =>
    match format_fileB dryRun f (fs.read f) subs with
    | none => ⟨[], [sortingMsg f], false⟩
    | some (w, out) =>
      let r := runFiles dryRun subs fs rest
      ⟨(f, w) :: r.writes, sortingMsg f :: (out ++ r.output), r.ok⟩

/-- Abort message for a substitution path that is not a file. -/
def notFileMsg (p : List Char) : List Char :=
  p ++ " doesn".toList ++ apos :: "t point to a file! Aborting...".toList

/-- Abort message for a substitution path without the `.json` extension. -/
def notJsonMsg (p : List Char) : List Char :=
  p ++ " doesn".toList ++ apos :: "t point to a JSON file! Aborting...".toList

/-- Abort message for a keymap path that is neither directory nor keymap file. -/
def notKeymapMsg (p : List Char) : List Char :=
  p ++ " doesn".toList ++ apos :: "t point to a folder or a keymap file! Aborting...".toList

/-- The `main` driver (named `mainRun` since Lean reserves `main`) over an abstract file system: validate the
substitution file (existence, then `.json` extension), load the table, then
process a directory of keymap files or a single `.keymap` file, else abort.
Exceptions from JSON parsing or item access propagate (`ok := false`). -/
def mainRun (fs : FS) (keymap_path substitution_file : List Char)
    (dry_run : Bool) : RunResult :=
  if fs.isFile substitution_file then
    if pathSuffix substitution_file = ".json".toList then
      match fs.json substitution_file with
      | .error _ => ⟨[], [], false⟩
      | .ok j =>
        match load_substitutions j with
        | .error _ => ⟨[], [], false⟩
        | .ok pairs =>
          let subs := pairs.map toSub
          if fs.isDir keymap_path then
            runFiles dry_run subs fs (fs.glob keymap_path)
          else if fs.isFile keymap_path ∧ pathSuffix keymap_path = ".keymap".toList then
            match format_fileB dry_run keymap_path (fs.read keymap_path) subs with
            | none => ⟨[], [], false⟩
            | some (w, out) => ⟨[(keymap_path, w)], out, true⟩
          else ⟨[], [notKeymapMsg keymap_path], true⟩
    else ⟨[], [notJsonMsg substitution_file], true⟩
  else ⟨[], [notFileMsg substitution_file], true⟩

/-- A valid anchor of the binding pattern: one of the two literal
`inc_dec_` names, or exactly two word characters. -/
def validAnchor (a : List Char) : Prop :=
  a = "inc_dec_kp".toList ∨ a = "inc_dec_cp".toList
    ∨ (a.length = 2 ∧ ∀ c ∈ a, isWordChar c = true)

instance (a : List Char) : Decidable (validAnchor a) := by
  unfold validAnchor; infer_instance

/-- The lines transformation a single substitution performs (the first
component of `stepSub`), used to state that the final content is the
left-to-right fold of the per-substitution passes. -/
def subPassLines (dryRun : Bool) (path : List Char) (ls : List (List Char))
    (sub : List Char × Option (List Char)) : List (List Char) :=
  (stepSub dryRun path (ls, []) sub).1

/-- A small concrete file system used to evaluate the driver: one keymap
file `a.keymap` holding `&kp AAA` and one substitution file `subs.json`
holding the table `[ (from AAA, to BBB) ]`. -/
def fsDemo : FS where
  isFile := fun p => p = "a.keymap".toList || p = "subs.json".toList
  isDir := fun _ => false
  json := fun _ =>
    .ok (.arr [.obj [("from".toList, .str "AAA".toList), ("to".toList, .str "BBB".toList)]])
  read := fun _ => utf8Encode "&kp AAA".toList
  glob := fun _ => []

/-! ## Basic lemmas about splitting and joining lines -/

theorem splitNl_ne_nil (cs : List Char) : splitNl cs ≠ [] := by
  match cs with
  | [] => simp [splitNl]
  | c :: cs =>
    simp only [splitNl]
    split
    · simp
    · split <;> simp

theorem joinNl_splitNl (cs : List Char) : joinNl (splitNl cs) = cs := by
  induction cs with
  | nil => rfl
  | cons c cs ih =>
    by_cases hc : c = '\n'
    · subst hc
      simp only [splitNl, if_pos rfl]
      rcases h : splitNl cs with _ | ⟨l, ls⟩
      · exact absurd h (splitNl_ne_nil cs)
      · rw [h] at ih
        simpa [joinNl] using ih
    · simp only [splitNl, if_neg hc]
      rcases h : splitNl cs with _ | ⟨l, ls⟩
      · exact absurd h (splitNl_ne_nil cs)
      · rw [h] at ih
        rcases ls with _ | ⟨l2, ls⟩
        · simpa [joinNl] using ih
        · simp only [joinNl] at ih ⊢
          simpa using ih

/-! ## Lemmas about the matcher for old tokens made of word characters -/

theorem lastIsWord_of_word {old : List Char} (h0 : old ≠ [])
    (hw : ∀ c ∈ old, isWordChar c = true) : lastIsWord old = true := by
  unfold lastIsWord
  rcases h : old.getLast? with _ | c
  · exact absurd (List.getLast?_eq_none_iff.mp h) h0
  · exact hw c (List.mem_of_getLast?_eq_some h)

theorem tryOld_true_none {old : List Char} (h0 : old ≠ [])
    (hw : ∀ c ∈ old, isWordChar c = true) (rest : List Char) :
    tryOld old rest true = none := by
  match old, h0 with
  | o :: os, _ =>
    have ho : isWordChar o = true := hw o (by simp)
    simp [tryOld, ho]

theorem matchTail_true_none {old : List Char} (h0 : old ≠ [])
    (hw : ∀ c ∈ old, isWordChar c = true) (rest : List Char) :
    matchTail old rest true = none := by
  induction rest with
  | nil => simpa [matchTail] using tryOld_true_none h0 hw []
  | cons c cs ih =>
    simp only [matchTail]
    by_cases hc : isWordChar c
    · simp [hc, ih, tryOld_true_none h0 hw]
    · simp [hc, tryOld_true_none h0 hw]

theorem matchTail_false_eq_tryOld {old : List Char} (h0 : old ≠ [])
    (hw : ∀ c ∈ old, isWordChar c = true) (rest : List Char) :
    matchTail old rest false = tryOld old rest false := by
  cases rest with
  | nil => rfl
  | cons c cs =>
    simp only [matchTail]
    by_cases hc : isWordChar c
    · simp [hc, matchTail_true_none h0 hw]
    · simp [hc]

theorem tryOld_false_some {old rest : List Char} {k : Nat} (h0 : old ≠ [])
    (hw : ∀ c ∈ old, isWordChar c = true) :
    tryOld old rest false = some k ↔
      k = 0 ∧ old.isPrefixOf rest = true ∧ headIsWord (rest.drop old.length) = false := by
  match old, h0 with
  | o :: os, _ =>
    have ho : isWordChar o = true := hw o (by simp)
    have hl : lastIsWord (o :: os) = true := lastIsWord_of_word (by simp) hw
    by_cases hp : (o :: os).isPrefixOf rest = true
    · by_cases hh : headIsWord (rest.drop (os.length + 1)) = true
      · simp [tryOld, ho, hl, hp, hh]
      · simp only [Bool.not_eq_true] at hh
        simp [tryOld, ho, hl, hp, hh]
        omega
    · simp only [Bool.not_eq_true] at hp
      simp [tryOld, ho, hl, hp]

theorem isPrefixOf_append_self (l t : List Char) : l.isPrefixOf (l ++ t) = true := by
  simp [List.isPrefixOf_iff_prefix]

theorem matchAnchorLen_shape {a : List Char} (ha : validAnchor a) (rest : List Char) :
    matchAnchorLen (a ++ ' ' :: rest) = some a.length := by
  rcases ha with h | h | ⟨hlen, hword⟩
  · subst h
    simp [matchAnchorLen, isPrefixOf_append_self]
  · subst h
    simp [matchAnchorLen, isPrefixOf_append_self, List.isPrefixOf]
  · match a, hlen with
    | [c1, c2], _ =>
      have h1 : isWordChar c1 = true := hword c1 (by simp)
      have h2 : isWordChar c2 = true := hword c2 (by simp)
      simp [matchAnchorLen, List.isPrefixOf, h1, h2]

theorem matchAnchorLen_inv {cs : List Char} {alen : Nat}
    (h : matchAnchorLen cs = some alen) :
    validAnchor (cs.take alen) ∧ (cs.take alen).length = alen := by
  unfold matchAnchorLen at h
  split_ifs at h with hpre
  · injection h with h10
    subst h10
    rcases Bool.or_eq_true_iff.mp hpre with hk | hc
    · have hp := List.isPrefixOf_iff_prefix.mp hk
      have ht := (List.prefix_iff_eq_take.mp hp).symm
      have : cs.take 10 = "inc_dec_kp".toList := by
        simpa using ht
      rw [this]
      exact ⟨Or.inl rfl, by decide⟩
    · have hp := List.isPrefixOf_iff_prefix.mp hc
      have ht := (List.prefix_iff_eq_take.mp hp).symm
      have : cs.take 10 = "inc_dec_cp".toList := by
        simpa using ht
      rw [this]
      exact ⟨Or.inr (Or.inl rfl), by decide⟩
  · match cs, h with
    | c1 :: c2 :: rest, h =>
      dsimp only at h
      split_ifs at h with hword
      injection h with h2
      subst h2
      rcases (Bool.and_eq_true _ _).mp hword with ⟨h1, hB⟩
      refine ⟨Or.inr (Or.inr ⟨by simp, ?_⟩), by simp⟩
      intro c hc
      simp only [List.take_succ_cons, List.take_zero, List.mem_cons,
        List.not_mem_nil, or_false] at hc
      rcases hc with rfl | rfl
      · exact h1
      · exact hB

theorem matchAfterAmp_shape {old a post : List Char} (ha : validAnchor a)
    (h0 : old ≠ []) (hw : ∀ c ∈ old, isWordChar c = true)
    (hpost : headIsWord post = false) :
    matchAfterAmp old (a ++ ' ' :: (old ++ post)) =
      some (a.length + 1, a.length + 1 + old.length) := by
  have htail : matchTail old (old ++ post) false = some 0 := by
    rw [matchTail_false_eq_tryOld h0 hw, tryOld_false_some h0 hw]
    refine ⟨rfl, isPrefixOf_append_self old post, ?_⟩
    rw [List.drop_left]
    exact hpost
  unfold matchAfterAmp
  split
  · rename_i hnone
    rw [matchAnchorLen_shape ha] at hnone
    exact absurd hnone (by simp)
  · rename_i alen hsome
    rw [matchAnchorLen_shape ha] at hsome
    injection hsome with halen
    subst halen
    split
    · rename_i afterSpace hd
      rw [List.drop_left] at hd
      injection hd with hd1 hd2
      subst hd2
      split
      · rename_i k ht
        rw [htail] at ht
        injection ht with hk
        subst hk
        rfl
      · rename_i ht
        rw [htail] at ht
        exact absurd ht (by simp)
    · rename_i hne
      exact absurd (List.drop_left a (' ' :: (old ++ post))) (by
        intro hdrop
        exact hne (old ++ post) hdrop)

theorem matchAfterAmp_inv {old cs : List Char} {g m : Nat} (h0 : old ≠ [])
    (hw : ∀ c ∈ old, isWordChar c = true)
    (h : matchAfterAmp old cs = some (g, m)) :
    ∃ a post, cs = a ++ ' ' :: (old ++ post) ∧ validAnchor a
      ∧ headIsWord post = false ∧ g = a.length + 1 ∧ m = a.length + 1 + old.length := by
  unfold matchAfterAmp at h
  split at h
  · exact absurd h (by simp)
  · rename_i alen hA
    obtain ⟨hva, hlen⟩ := matchAnchorLen_inv hA
    split at h
    · rename_i afterSpace hd
      split at h
      · rename_i k ht
        rw [matchTail_false_eq_tryOld h0 hw] at ht
        obtain ⟨hk, hpre, hhead⟩ := (tryOld_false_some h0 hw).mp ht
        subst hk
        obtain ⟨post, hpost⟩ := List.isPrefixOf_iff_prefix.mp hpre
        refine ⟨cs.take alen, post, ?_, hva, ?_, ?_, ?_⟩
        · rw [hpost, ← hd, List.take_append_drop]
        · rw [← hpost] at hhead
          rwa [List.drop_left] at hhead
        · simp only [Option.some.injEq, Prod.mk.injEq] at h
          rw [← h.1, hlen]
        · simp only [Option.some.injEq, Prod.mk.injEq] at h
          rw [← h.2, hlen]
      · exact absurd h (by simp)
    · exact absurd h (by simp)

/-! ## Lemmas about the substitution scan -/

theorem subScanFuel_congr (old nw : List Char) :
    ∀ f1 f2 (l : List Char), l.length ≤ f1 → l.length ≤ f2 →
      subScanFuel old nw f1 l = subScanFuel old nw f2 l := by
  intro f1
  induction f1 with
  | zero =>
    intro f2 l h1 h2
    have : l = [] := List.length_eq_zero.mp (Nat.le_zero.mp h1)
    subst this
    cases f2 <;> rfl
  | succ f ih =>
    intro f2 l h1 h2
    cases l with
    | nil => cases f2 <;> rfl
    | cons c cs =>
      cases f2 with
      | zero => simp at h2
      | succ f2 =>
        simp only [List.length_cons] at h1 h2
        simp only [subScanFuel]
        by_cases hc : c = '&'
        · subst hc
          rcases hm : matchAfterAmp old cs with _ | ⟨g, m⟩
          · simp only [if_pos rfl, hm, if_true]
            rw [ih f2 cs (by omega) (by omega)]
          · simp only [if_pos rfl, hm, if_true]
            rw [ih f2 (cs.drop m) (by simp only [List.length_drop]; omega)
              (by simp only [List.length_drop]; omega)]
        · simp only [if_neg hc]
          rw [ih f2 cs (by omega) (by omega)]

theorem subScan_cons (old nw : List Char) (c : Char) (cs : List Char) :
    subScan old nw (c :: cs) =
      if c = '&' then
        match matchAfterAmp old cs with
        | some (g, m) => c :: (cs.take g ++ nw ++ subScan old nw (cs.drop m))
        | none => c :: subScan old nw cs
      else c :: subScan old nw cs := by
  show subScanFuel old nw (c :: cs).length (c :: cs) = _
  simp only [List.length_cons, subScanFuel]
  by_cases hc : c = '&'
  · subst hc
    rcases hm : matchAfterAmp old cs with _ | ⟨g, m⟩
    · simp only [if_pos rfl, hm, if_true]
      rfl
    · simp only [if_pos rfl, hm, if_true]
      rw [subScanFuel_congr old nw cs.length (cs.drop m).length (cs.drop m)
        (by simp only [List.length_drop]; omega) (Nat.le_refl _)]
      rfl
  · simp only [if_neg hc]
    rfl

theorem subScan_cons_not_amp {c : Char} (old nw cs : List Char) (hc : c ≠ '&') :
    subScan old nw (c :: cs) = c :: subScan old nw cs := by
  rw [subScan_cons]
  simp [hc]

theorem subScan_cons_amp_match {old cs : List Char} {g m : Nat} (nw : List Char)
    (h : matchAfterAmp old cs = some (g, m)) :
    subScan old nw ('&' :: cs) = '&' :: (cs.take g ++ nw ++ subScan old nw (cs.drop m)) := by
  rw [subScan_cons]
  simp only [if_pos rfl, h, if_true]

theorem subScan_cons_amp_nomatch {old cs : List Char} (nw : List Char)
    (h : matchAfterAmp old cs = none) :
    subScan old nw ('&' :: cs) = '&' :: subScan old nw cs := by
  rw [subScan_cons]
  simp only [if_pos rfl, h, if_true]

theorem subScan_append_pre {pre : List Char} (old nw l : List Char)
    (hpre : ∀ c ∈ pre, c ≠ '&') :
    subScan old nw (pre ++ l) = pre ++ subScan old nw l := by
  induction pre with
  | nil => rfl
  | cons p ps ih =>
    rw [List.cons_append, subScan_cons_not_amp old nw (ps ++ l) (hpre p (by simp)),
      ih (fun c hc => hpre c (by simp [hc]))]
    rfl

theorem subScan_decomp {old a post : List Char} (nw pre : List Char)
    (h0 : old ≠ []) (hw : ∀ c ∈ old, isWordChar c = true) (ha : validAnchor a)
    (hpost : headIsWord post = false) (hpre : ∀ c ∈ pre, c ≠ '&') :
    subScan old nw (pre ++ '&' :: (a ++ ' ' :: (old ++ post))) =
      pre ++ '&' :: (a ++ ' ' :: (nw ++ subScan old nw post)) := by
  rw [subScan_append_pre old nw _ hpre,
    subScan_cons_amp_match nw (matchAfterAmp_shape ha h0 hw hpost)]
  have htake : (a ++ ' ' :: (old ++ post)).take (a.length + 1) = a ++ [' '] := by
    have he : a ++ ' ' :: (old ++ post) = (a ++ [' ']) ++ (old ++ post) := by simp
    rw [he]
    exact List.take_left' (by simp)
  have hdrop : (a ++ ' ' :: (old ++ post)).drop (a.length + 1 + old.length) = post := by
    have he : a ++ ' ' :: (old ++ post) = ((a ++ [' ']) ++ old) ++ post := by simp
    rw [he]
    exact List.drop_left' (by simp; omega)
  rw [htake, hdrop]
  simp

theorem subScan_of_not_hasMatch {old l : List Char} (nw : List Char)
    (h : hasMatch old l = false) : subScan old nw l = l := by
  induction l with
  | nil => rfl
  | cons c cs ih =>
    rw [hasMatch] at h
    by_cases hc : c = '&'
    · subst hc
      rw [if_pos rfl] at h
      rcases Bool.or_eq_false_iff.mp h with ⟨h1, h2⟩
      have hm : matchAfterAmp old cs = none := by
        rcases hmm : matchAfterAmp old cs with _ | v
        · rfl
        · rw [hmm] at h1
          simp at h1
      rw [subScan_cons_amp_nomatch nw hm, ih h2]
    · rw [if_neg hc] at h
      rw [subScan_cons_not_amp old nw cs hc, ih h]

theorem hasMatch_iff_decomp {old : List Char} (h0 : old ≠ [])
    (hw : ∀ c ∈ old, isWordChar c = true) (l : List Char) :
    hasMatch old l = true ↔
      ∃ pre a post, l = pre ++ '&' :: (a ++ ' ' :: (old ++ post))
        ∧ validAnchor a ∧ headIsWord post = false := by
  constructor
  · intro h
    induction l with
    | nil => simp [hasMatch] at h
    | cons c cs ih =>
      rw [hasMatch] at h
      by_cases hc : c = '&'
      · subst hc
        rw [if_pos rfl] at h
        rcases Bool.or_eq_true_iff.mp h with h1 | h2
        · obtain ⟨⟨g, m⟩, hgm⟩ := Option.isSome_iff_exists.mp h1
          obtain ⟨a, post, hcs, hva, hpost, _, _⟩ := matchAfterAmp_inv h0 hw hgm
          exact ⟨[], a, post, by rw [hcs]; rfl, hva, hpost⟩
        · obtain ⟨pre, a, post, hcs, hva, hpost⟩ := ih h2
          exact ⟨'&' :: pre, a, post, by rw [hcs]; rfl, hva, hpost⟩
      · rw [if_neg hc] at h
        obtain ⟨pre, a, post, hcs, hva, hpost⟩ := ih h
        exact ⟨c :: pre, a, post, by rw [hcs]; rfl, hva, hpost⟩
  · rintro ⟨pre, a, post, rfl, hva, hpost⟩
    induction pre with
    | nil =>
      rw [List.nil_append, hasMatch, if_pos rfl,
        matchAfterAmp_shape hva h0 hw hpost]
      rfl
    | cons p ps ih =>
      rw [List.cons_append, hasMatch]
      by_cases hp : p = '&'
      · rw [if_pos hp, ih]
        simp
      · rw [if_neg hp, ih]

/-! ## Lemmas about the substitution loop of `format_file` -/

theorem stepSub_out (d : Bool) (p : List Char) (ls out : List (List Char))
    (s : List Char × Option (List Char)) :
    stepSub d p (ls, out) s = ((stepSub d p (ls, []) s).1, out ++ (stepSub d p (ls, []) s).2) := by
  unfold stepSub
  by_cases he : (ls.filter (fun l => hasMatch s.1 l)).isEmpty
  · simp [he]
  · rcases s2 : s.2 with _ | nw
    · simp [he, s2]
    · by_cases hd : d = true
      · simp [he, s2, hd]
      · simp only [Bool.not_eq_true] at hd
        simp [he, s2, hd]

theorem foldl_stepSub_out (d : Bool) (p : List Char)
    (subs : List (List Char × Option (List Char))) :
    ∀ ls out, subs.foldl (stepSub d p) (ls, out)
      = ((subs.foldl (stepSub d p) (ls, [])).1,
          out ++ (subs.foldl (stepSub d p) (ls, [])).2) := by
  induction subs with
  | nil => intro ls out; simp
  | cons s subs ih =>
    intro ls out
    rw [List.foldl_cons, List.foldl_cons, stepSub_out d p ls out s]
    rw [ih (stepSub d p (ls, []) s).1 (out ++ (stepSub d p (ls, []) s).2)]
    rw [ih (stepSub d p (ls, []) s).1 (stepSub d p (ls, []) s).2]
    simp [List.append_assoc]

theorem foldl_stepSub_fst (d : Bool) (p : List Char)
    (subs : List (List Char × Option (List Char))) :
    ∀ ls out, (subs.foldl (stepSub d p) (ls, out)).1
      = subs.foldl (subPassLines d p) ls := by
  induction subs with
  | nil => intro ls out; rfl
  | cons s subs ih =>
    intro ls out
    rw [List.foldl_cons, List.foldl_cons, stepSub_out d p ls out s, ih]
    rfl

theorem stepSub_dry (p : List Char) (ls out : List (List Char))
    (s : List Char × Option (List Char)) :
    stepSub true p (ls, out) s = (ls, out ++ (subMsg p ls s).toList) := by
  unfold stepSub subMsg
  by_cases he : (ls.filter (fun l => hasMatch s.1 l)).isEmpty
  · simp [he]
  · rcases s2 : s.2 with _ | nw
    · simp [he, s2]
    · simp [he, s2]

theorem foldl_stepSub_dry (p : List Char) (subs : List (List Char × Option (List Char))) :
    ∀ out, subs.foldl (stepSub true p) (ls, out) = (ls, out ++ subs.filterMap (subMsg p ls)) := by
  induction subs with
  | nil => intro out; simp
  | cons s subs ih =>
    intro out
    rw [List.foldl_cons, stepSub_dry p ls out s, ih]
    rcases hm : subMsg p ls s with _ | msg
    · simp [hm, List.filterMap_cons]
    · simp [hm, List.filterMap_cons, List.append_assoc]

theorem format_file_dry (p content : List Char)
    (subs : List (List Char × Option (List Char))) :
    format_file true p content subs
      = ⟨content, subs.filterMap (subMsg p (splitNl content))⟩ := by
  simp only [format_file]
  rw [foldl_stepSub_dry p subs]
  simp [joinNl_splitNl]

theorem stepSub_no_match {ls : List (List Char)} {s : List Char × Option (List Char)}
    (d : Bool) (p : List Char) (out : List (List Char))
    (h : ∀ l ∈ ls, hasMatch s.1 l = false) :
    stepSub d p (ls, out) s = (ls, out) := by
  unfold stepSub
  have he : (ls.filter (fun l => hasMatch s.1 l)).isEmpty = true := by
    rw [List.isEmpty_iff, List.filter_eq_nil_iff]
    intro a ha
    simp [h a ha]
  simp [he]

theorem foldl_stepSub_no_match {subs : List (List Char × Option (List Char))}
    {ls : List (List Char)} (d : Bool) (p : List Char) (out : List (List Char))
    (h : ∀ s ∈ subs, ∀ l ∈ ls, hasMatch s.1 l = false) :
    subs.foldl (stepSub d p) (ls, out) = (ls, out) := by
  induction subs with
  | nil => rfl
  | cons s subs ih =>
    rw [List.foldl_cons, stepSub_no_match d p out (h s (by simp))]
    exact ih (fun s2 hs2 => h s2 (by simp [hs2]))

theorem format_file_no_match {content : List Char}
    {subs : List (List Char × Option (List Char))} (d : Bool) (p : List Char)
    (h : ∀ s ∈ subs, ∀ l ∈ splitNl content, hasMatch s.1 l = false) :
    format_file d p content subs = ⟨content, []⟩ := by
  simp only [format_file]
  rw [foldl_stepSub_no_match d p [] h]
  simp [joinNl_splitNl]

theorem stepSub_null_matched {ls : List (List Char)} {old : List Char}
    (d : Bool) (p : List Char) (out : List (List Char))
    (h : ∃ l ∈ ls, hasMatch old l = true) :
    stepSub d p (ls, out) (old, none) = (ls, out ++ [noReplMsg p old]) := by
  unfold stepSub
  have he : (ls.filter (fun l => hasMatch old l)).isEmpty = false := by
    obtain ⟨l, hl, hm⟩ := h
    have hmem : l ∈ ls.filter (fun l => hasMatch old l) := List.mem_filter.mpr ⟨hl, hm⟩
    rcases hfil : ls.filter (fun l => hasMatch old l) with _ | ⟨x, xs⟩
    · rw [hfil] at hmem
      simp at hmem
    · rfl
  simp [he]


/-! ## UTF-8 round trip -/

theorem utf8Cont2_spec {b n : Nat} {bs rest : List Nat} (hb1 : 0xC2 ≤ b) (hb2 : b < 0xE0)
    (h : utf8Cont2 b bs = some (n, rest)) :
    Nat.isValidChar n ∧ utf8EncodeCp n ++ rest = b :: bs ∧ rest.length < bs.length + 1 := by
  match bs with
  | [] => simp [utf8Cont2] at h
  | b2 :: bs2 =>
    simp only [utf8Cont2] at h
    split_ifs at h with hc
    rw [Option.some.injEq, Prod.mk.injEq] at h
    obtain ⟨hn, hrest⟩ := h
    subst hn; subst hrest
    refine ⟨Or.inl (by omega), ?_, by simp only [List.length_cons]; omega⟩
    simp only [utf8EncodeCp]
    rw [if_neg (by omega), if_pos (by omega)]
    simp only [List.cons_append, List.nil_append, List.cons.injEq]
    refine ⟨by omega, by omega, by trivial⟩

theorem utf8Cont3_spec {b n : Nat} {bs rest : List Nat} (hb1 : 0xE0 ≤ b) (hb2 : b < 0xF0)
    (h : utf8Cont3 b bs = some (n, rest)) :
    Nat.isValidChar n ∧ utf8EncodeCp n ++ rest = b :: bs ∧ rest.length < bs.length + 1 := by
  match bs with
  | [] => simp [utf8Cont3] at h
  | [x] => simp [utf8Cont3] at h
  | b2 :: b3 :: bs3 =>
    simp only [utf8Cont3] at h
    split_ifs at h with he hd hd
    all_goals (
      rw [Option.some.injEq, Prod.mk.injEq] at h
      obtain ⟨hn, hrest⟩ := h
      subst hn; subst hrest
      refine ⟨?_, ?_, by simp only [List.length_cons]; omega⟩
      · simp only [Nat.isValidChar]
        omega
      · simp only [utf8EncodeCp]
        rw [if_neg (by omega), if_neg (by omega), if_pos (by omega)]
        simp only [List.cons_append, List.nil_append, List.cons.injEq]
        refine ⟨by omega, by omega, by omega, by trivial⟩)

theorem utf8Cont4_spec {b n : Nat} {bs rest : List Nat} (hb1 : 0xF0 ≤ b) (hb2 : b < 0xF5)
    (h : utf8Cont4 b bs = some (n, rest)) :
    Nat.isValidChar n ∧ utf8EncodeCp n ++ rest = b :: bs ∧ rest.length < bs.length + 1 := by
  match bs with
  | [] => simp [utf8Cont4] at h
  | [x] => simp [utf8Cont4] at h
  | [x, y] => simp [utf8Cont4] at h
  | b2 :: b3 :: b4 :: bs4 =>
    simp only [utf8Cont4] at h
    split_ifs at h with he hd hd
    all_goals (
      rw [Option.some.injEq, Prod.mk.injEq] at h
      obtain ⟨hn, hrest⟩ := h
      subst hn; subst hrest
      refine ⟨?_, ?_, by simp only [List.length_cons]; omega⟩
      · simp only [Nat.isValidChar]
        omega
      · simp only [utf8EncodeCp]
        rw [if_neg (by omega), if_neg (by omega), if_neg (by omega)]
        simp only [List.cons_append, List.nil_append, List.cons.injEq]
        refine ⟨by omega, by omega, by omega, by omega, by trivial⟩)

theorem utf8Decode1_spec {bytes rest : List Nat} {n : Nat}
    (h : utf8Decode1 bytes = some (n, rest)) :
    Nat.isValidChar n ∧ utf8EncodeCp n ++ rest = bytes ∧ rest.length < bytes.length := by
  match bytes with
  | [] => simp [utf8Decode1] at h
  | b :: bs =>
    simp only [utf8Decode1] at h
    split_ifs at h with h1 h2 h3 h4 h5
    · rw [Option.some.injEq, Prod.mk.injEq] at h
      obtain ⟨hn, hrest⟩ := h
      subst hn; subst hrest
      refine ⟨Or.inl (by omega), ?_, by simp only [List.length_cons]; omega⟩
      simp only [utf8EncodeCp]
      rw [if_pos h1]
      rfl
    · obtain ⟨hv, he, hl⟩ := utf8Cont2_spec (by omega) h3 h
      exact ⟨hv, he, by simpa using hl⟩
    · obtain ⟨hv, he, hl⟩ := utf8Cont3_spec (by omega) h4 h
      exact ⟨hv, he, by simpa using hl⟩
    · obtain ⟨hv, he, hl⟩ := utf8Cont4_spec (by omega) h5 h
      exact ⟨hv, he, by simpa using hl⟩

theorem utf8DecodeFuel_spec :
    ∀ (f : Nat) (bytes : List Nat) (cps : List Nat), utf8DecodeFuel f bytes = some cps →
      (∀ n ∈ cps, Nat.isValidChar n) ∧ (cps.map utf8EncodeCp).flatten = bytes := by
  intro f
  induction f with
  | zero =>
    intro bytes cps h
    match bytes, h with
    | [], h =>
      rw [show utf8DecodeFuel 0 [] = some [] from rfl, Option.some.injEq] at h
      subst h
      simp
  | succ f ih =>
    intro bytes cps h
    match bytes with
    | [] =>
      rw [show utf8DecodeFuel (f + 1) [] = some [] from rfl, Option.some.injEq] at h
      subst h
      simp
    | b :: bs =>
      rw [show utf8DecodeFuel (f + 1) (b :: bs)
          = (match utf8Decode1 (b :: bs) with
             | none => none
             | some (n, rest) => (utf8DecodeFuel f rest).map (fun ns => n :: ns)) from rfl] at h
      rcases h1 : utf8Decode1 (b :: bs) with _ | ⟨n, rest⟩ <;> rw [h1] at h
      · exact absurd h (by simp)
      · rw [show (match some (n, rest) with
            | none => none
            | some (n, rest) => Option.map (fun ns => n :: ns) (utf8DecodeFuel f rest))
            = Option.map (fun ns => n :: ns) (utf8DecodeFuel f rest) from rfl] at h
        rcases h2 : utf8DecodeFuel f rest with _ | cps2 <;> rw [h2] at h
        · exact absurd h (by simp)
        · simp only [Option.map_some', Option.some.injEq] at h
          subst h
          obtain ⟨hv1, he1, _⟩ := utf8Decode1_spec h1
          obtain ⟨hv2, he2⟩ := ih rest cps2 h2
          refine ⟨?_, ?_⟩
          · intro x hx
            rcases List.mem_cons.mp hx with rfl | hx2
            · exact hv1
            · exact hv2 x hx2
          · simp only [List.map_cons, List.flatten_cons, he2, he1]

theorem char_toNat_ofNat {n : Nat} (h : n.isValidChar) : (Char.ofNat n).toNat = n := by
  rw [Char.ofNat, dif_pos h]
  rfl

theorem utf8Encode_of_decode {bytes : List Nat} {cs : List Char}
    (h : utf8Decode bytes = some cs) : utf8Encode cs = bytes := by
  unfold utf8Decode at h
  rcases h1 : utf8DecodeCps bytes with _ | cps <;> rw [h1] at h
  · exact absurd h (by simp)
  · simp only [Option.map_some', Option.some.injEq] at h
    subst h
    obtain ⟨hv, he⟩ := utf8DecodeFuel_spec bytes.length bytes cps h1
    unfold utf8Encode
    rw [List.map_map]
    have hmaps : cps.map (utf8EncodeChar ∘ Char.ofNat) = cps.map utf8EncodeCp := by
      apply List.map_congr_left
      intro n hn
      simp only [Function.comp_apply, utf8EncodeChar]
      rw [char_toNat_ofNat (hv n hn)]
    rw [hmaps, he]

/-! ## Loader and driver helper lemmas -/

theorem subScan_nil (old nw : List Char) : subScan old nw [] = [] := rfl

theorem loadPairs_mk (ps : List (JValue × JValue)) :
    loadPairs (ps.map (fun q => JValue.obj [("from".toList, q.1), ("to".toList, q.2)]))
      = .ok ps := by
  induction ps with
  | nil => rfl
  | cons q qs ih =>
    have hstep : loadPairs ((q :: qs).map
          (fun q => JValue.obj [("from".toList, q.1), ("to".toList, q.2)]))
        = match loadPairs (qs.map
            (fun q => JValue.obj [("from".toList, q.1), ("to".toList, q.2)])) with
          | .error e => .error e
          | .ok l => .ok ((q.1, q.2) :: l) := rfl
    rw [hstep, ih]

theorem format_fileB_eq {bytes : List Nat} {content : List Char}
    (d : Bool) (path : List Char) (subs : List (List Char × Option (List Char)))
    (h : utf8Decode bytes = some content) :
    format_fileB d path bytes subs
      = some (utf8Encode (format_file d path content subs).written,
              (format_file d path content subs).output) := by
  unfold format_fileB
  rw [h]

/-! ## Claims -/

/-- C1 counterexample: the claim says a dry-run invocation performs no write,
but the driver still opens and writes every processed file in dry-run mode
(the write-back at the end of `format_file` is unconditional): on the demo
file system a dry run records a write of `a.keymap`. -/
theorem C1_counterexample :
    (mainRun fsDemo "a.keymap".toList "subs.json".toList true).writes
        = [("a.keymap".toList, utf8Encode "&kp AAA".toList)]
    ∧ (mainRun fsDemo "a.keymap".toList "subs.json".toList true).writes ≠ [] := by
  constructor
  · decide
  · decide

/-- C1 (amended): in dry-run mode a processed file is still written back, but
with byte content identical to the original (line mutation is skipped, and
the decode/split/join/encode round trip is the identity on valid UTF-8), and
the printed messages are exactly one per substitution with at least one
matching line: the dry-run count message when a replacement exists, the
no-replacement diagnostic otherwise; substitutions with no matching line
print nothing. -/
theorem C1_dry_run_thm :
    ∀ (path content : List Char) (bytes : List Nat)
      (subs : List (List Char × Option (List Char))),
      utf8Decode bytes = some content →
      format_fileB true path bytes subs
        = some (bytes, subs.filterMap (subMsg path (splitNl content))) := by
  intro path content bytes subs h
  rw [format_fileB_eq true path subs h, format_file_dry]
  show some (utf8Encode content, subs.filterMap (subMsg path (splitNl content))) = _
  rw [utf8Encode_of_decode h]

/-- C1 witness: a dry run over the file `&kp AAA` with table `AAA → BBB`
writes the original bytes back and prints the one-line count message. -/
theorem C1_dry_run_witness :
    format_fileB true "a.keymap".toList (utf8Encode "&kp AAA".toList)
        [("AAA".toList, some "BBB".toList)]
      = some (utf8Encode "&kp AAA".toList, [wouldMsg "AAA".toList "BBB".toList 1]) :=
  C1_dry_run_thm "a.keymap".toList "&kp AAA".toList (utf8Encode "&kp AAA".toList)
    [("AAA".toList, some "BBB".toList)] (by decide)

/-- C2 counterexample: an array element with `from` but no `to` key makes the
loader fail (Python raises `KeyError` on `s["to"]`) instead of yielding a
pair with no replacement, while an explicit `to: null` is accepted. -/
theorem C2_counterexample :
    load_substitutions (.arr [.obj [("from".toList, .str "A".toList)]]) = .error ()
    ∧ load_substitutions
        (.arr [.obj [("from".toList, .str "A".toList), ("to".toList, .null)]])
      = .ok [(.str "A".toList, .null)] :=
  ⟨rfl, rfl⟩

/-- C2 (amended): for every JSON array of objects each containing both a
`from` and a `to` field, the loader returns the ordered `(from, to)` pairs
preserving array order, and a `to` of `null` is carried to the rewriter as
the absence of a replacement; an element whose `to` field is absent raises
an error instead. -/
theorem C2_loader_thm :
    ∀ ps : List (JValue × JValue),
      load_substitutions
          (.arr (ps.map (fun q => JValue.obj [("from".toList, q.1), ("to".toList, q.2)])))
        = .ok ps
      ∧ ∀ f : JValue, toSub (f, JValue.null) = (pyStr f, none) :=
  fun ps => ⟨loadPairs_mk ps, fun _ => rfl⟩

/-- C3: when no substitution's old token matches any line of a valid-UTF-8
file, a non-dry-run invocation writes back exactly the original bytes (the
decode, split-on-newline, join, re-encode round trip is the identity),
multi-byte characters included, and prints nothing. -/
theorem C3_no_match_thm :
    ∀ (bytes : List Nat) (content path : List Char)
      (subs : List (List Char × Option (List Char))),
      utf8Decode bytes = some content →
      (∀ s ∈ subs, ∀ l ∈ splitNl content, hasMatch s.1 l = false) →
      format_fileB false path bytes subs = some (bytes, []) := by
  intro bytes content path subs h hnm
  rw [format_fileB_eq false path subs h, format_file_no_match false path hnm]
  show some (utf8Encode content, []) = _
  rw [utf8Encode_of_decode h]

/-- C3 witness: the bytes of `é&kp Z` (with the two-byte UTF-8 character
`é`) survive a run with the non-matching table `ZZZ → YYY` unchanged. -/
theorem C3_no_match_witness :
    format_fileB false "a.keymap".toList [195, 169, 38, 107, 112, 32, 90]
        [("ZZZ".toList, some "YYY".toList)]
      = some ([195, 169, 38, 107, 112, 32, 90], []) :=
  C3_no_match_thm [195, 169, 38, 107, 112, 32, 90] (Char.ofNat 233 :: "&kp Z".toList)
    "a.keymap".toList [("ZZZ".toList, some "YYY".toList)] (by decide) (by decide)

/-- C4: for the table entry `OLD → NEW`, the line `&kp OLD` is rewritten to
`&kp NEW`, while `&kp OLDX`, where the old token is a proper prefix of a
longer word, is left unchanged — matching requires a full word-boundary
match of the old token. -/
theorem C4_word_boundary_thm :
    format_file false "a.keymap".toList "&kp OLD\n&kp OLDX".toList
        [("OLD".toList, some "NEW".toList)]
      = ⟨"&kp NEW\n&kp OLDX".toList, []⟩ := by
  decide

/-- C5: when a substitution has no replacement and its old token matches at
least one line, a non-dry-run run leaves the content contribution of that
substitution empty — with it as the only table entry the written content is
byte-identical to the input — prints the diagnostic naming the file and the
token, and continues with the remaining substitutions. -/
theorem C5_null_replacement_thm :
    ∀ (path content old : List Char) (rest : List (List Char × Option (List Char))),
      (∃ l ∈ splitNl content, hasMatch old l = true) →
      format_file false path content ((old, none) :: rest)
          = ⟨(format_file false path content rest).written,
             noReplMsg path old :: (format_file false path content rest).output⟩
      ∧ format_file false path content [(old, none)]
          = ⟨content, [noReplMsg path old]⟩ := by
  intro path content old rest h
  constructor
  · simp only [format_file, List.foldl_cons]
    rw [stepSub_null_matched false path [] h]
    simp only [List.nil_append]
    rw [foldl_stepSub_out false path rest (splitNl content) [noReplMsg path old]]
    simp
  · simp only [format_file, List.foldl_cons, List.foldl_nil]
    rw [stepSub_null_matched false path [] h]
    simp [joinNl_splitNl]

/-- C5 witness: with the single null entry for `AAA` over the file
`&kp AAA` the output content equals the input and exactly the diagnostic is
printed. -/
theorem C5_null_replacement_witness :
    (format_file false "a.keymap".toList "&kp AAA".toList (("AAA".toList, none) :: [])
        = ⟨(format_file false "a.keymap".toList "&kp AAA".toList []).written,
           noReplMsg "a.keymap".toList "AAA".toList
             :: (format_file false "a.keymap".toList "&kp AAA".toList []).output⟩)
    ∧ format_file false "a.keymap".toList "&kp AAA".toList [("AAA".toList, none)]
        = ⟨"&kp AAA".toList, [noReplMsg "a.keymap".toList "AAA".toList]⟩ :=
  C5_null_replacement_thm "a.keymap".toList "&kp AAA".toList "AAA".toList [] (by decide)

/-- C6: when the substitution-file argument does not name an existing file,
or names one whose extension is not `.json`, the run aborts cleanly after
printing exactly one user-facing message, performing no writes at all. -/
theorem C6_abort_thm :
    ∀ (fs : FS) (keymapPath subPath : List Char) (d : Bool),
      fs.isFile subPath = false ∨ pathSuffix subPath ≠ ".json".toList →
      (mainRun fs keymapPath subPath d).writes = []
      ∧ (∃ msg, (mainRun fs keymapPath subPath d).output = [msg])
      ∧ (mainRun fs keymapPath subPath d).ok = true := by
  intro fs kp sp d h
  rcases h with h | h
  · have he : mainRun fs kp sp d = ⟨[], [notFileMsg sp], true⟩ := by
      unfold mainRun
      rw [h]
      rfl
    rw [he]
    exact ⟨rfl, ⟨notFileMsg sp, rfl⟩, rfl⟩
  · by_cases hf : fs.isFile sp = true
    · have he : mainRun fs kp sp d = ⟨[], [notJsonMsg sp], true⟩ := by
        unfold mainRun
        rw [hf, if_pos rfl, if_neg h]
      rw [he]
      exact ⟨rfl, ⟨notJsonMsg sp, rfl⟩, rfl⟩
    · have hf2 : fs.isFile sp = false := by simpa using hf
      have he : mainRun fs kp sp d = ⟨[], [notFileMsg sp], true⟩ := by
        unfold mainRun
        rw [hf2]
        rfl
      rw [he]
      exact ⟨rfl, ⟨notFileMsg sp, rfl⟩, rfl⟩

/-- C6 witness: on the demo file system, pointing the substitution option at
the nonexistent `subs.txt` aborts with one message and no writes. -/
theorem C6_abort_witness :
    (mainRun fsDemo "a.keymap".toList "subs.txt".toList false).writes = []
    ∧ (∃ msg, (mainRun fsDemo "a.keymap".toList "subs.txt".toList false).output = [msg])
    ∧ (mainRun fsDemo "a.keymap".toList "subs.txt".toList false).ok = true :=
  C6_abort_thm fsDemo "a.keymap".toList "subs.txt".toList false (Or.inl (by decide))

/-- C7: substitutions are applied sequentially in table order — the final
content is the left-to-right fold of the per-substitution passes over the
split lines — and each pass rescans the current content, so a later
substitution can match text produced by an earlier one, as the chained table
`AAA → BBB, BBB → CCC` turning `&kp AAA` into `&kp CCC` shows. -/
theorem C7_fold_thm :
    (∀ (d : Bool) (path content : List Char)
        (subs : List (List Char × Option (List Char))),
        (format_file d path content subs).written
          = joinNl (subs.foldl (subPassLines d path) (splitNl content)))
    ∧ (format_file false "p".toList "&kp AAA".toList
          [("AAA".toList, some "BBB".toList), ("BBB".toList, some "CCC".toList)]).written
        = "&kp CCC".toList := by
  constructor
  · intro d path content subs
    simp only [format_file]
    rw [foldl_stepSub_fst]
  · decide

/-- C8: on a line holding a match, the matched region is replaced by the
captured anchor-plus-prefix text unchanged followed by the new token —
everything before and after the old token, the anchor marker and binding
name included, is preserved verbatim; a line with no match is returned
unchanged, and every matched region of a line is rewritten, as the
double-match line shows. -/
theorem C8_replacement_thm :
    (∀ (old nw a post pre : List Char),
        old ≠ [] → (∀ c ∈ old, isWordChar c = true) → validAnchor a →
        headIsWord post = false → (∀ c ∈ pre, c ≠ '&') →
        subScan old nw (pre ++ '&' :: (a ++ ' ' :: (old ++ post)))
          = pre ++ '&' :: (a ++ ' ' :: (nw ++ subScan old nw post)))
    ∧ (∀ (old nw l : List Char), hasMatch old l = false → subScan old nw l = l)
    ∧ subScan "OLD".toList "NEW".toList "&kp OLD &kp OLD".toList
        = "&kp NEW &kp NEW".toList := by
  refine ⟨?_, ?_, by decide⟩
  · intro old nw a post pre h0 hw ha hpost hpre
    exact subScan_decomp nw pre h0 hw ha hpost hpre
  · intro old nw l h
    exact subScan_of_not_hasMatch nw h

/-- C8 witness: the single-match line `&kp OLD` under `OLD → NEW` becomes
`&kp NEW`, instantiating the decomposition at empty prefix and suffix. -/
theorem C8_replacement_witness :
    subScan "OLD".toList "NEW".toList
        ([] ++ '&' :: ("kp".toList ++ ' ' :: ("OLD".toList ++ [])))
      = [] ++ '&' :: ("kp".toList ++ ' ' :: ("NEW".toList
          ++ subScan "OLD".toList "NEW".toList [])) :=
  C8_replacement_thm.1 "OLD".toList "NEW".toList "kp".toList [] []
    (by decide) (by decide) (by decide) (by decide) (by decide)

/-- C9: a line `&inc_dec_kp OLD`, and likewise `&inc_dec_cp OLD`, is matched
by the pattern for OLD and rewritten by replacing only the trailing token,
exactly as the two-word-character anchor line `&kp OLD` is. -/
theorem C9_inc_dec_thm :
    ∀ old nw : List Char, old ≠ [] → (∀ c ∈ old, isWordChar c = true) →
      (hasMatch old ("&inc_dec_kp ".toList ++ old) = true
        ∧ subScan old nw ("&inc_dec_kp ".toList ++ old) = "&inc_dec_kp ".toList ++ nw)
      ∧ (hasMatch old ("&inc_dec_cp ".toList ++ old) = true
        ∧ subScan old nw ("&inc_dec_cp ".toList ++ old) = "&inc_dec_cp ".toList ++ nw)
      ∧ (hasMatch old ("&kp ".toList ++ old) = true
        ∧ subScan old nw ("&kp ".toList ++ old) = "&kp ".toList ++ nw) := by
  intro old nw h0 hw
  have hkp : "&inc_dec_kp ".toList ++ old
      = [] ++ '&' :: ("inc_dec_kp".toList ++ ' ' :: (old ++ [])) := by simp
  have hcp : "&inc_dec_cp ".toList ++ old
      = [] ++ '&' :: ("inc_dec_cp".toList ++ ' ' :: (old ++ [])) := by simp
  have h2 : "&kp ".toList ++ old
      = [] ++ '&' :: ("kp".toList ++ ' ' :: (old ++ [])) := by simp
  refine ⟨⟨?_, ?_⟩, ⟨?_, ?_⟩, ⟨?_, ?_⟩⟩
  · rw [hkp]
    exact (hasMatch_iff_decomp h0 hw _).mpr
      ⟨[], "inc_dec_kp".toList, [], by simp, Or.inl rfl, rfl⟩
  · rw [hkp, subScan_decomp nw [] h0 hw (Or.inl rfl) (show headIsWord [] = false from rfl) (by simp)]
    simp [subScan_nil]
  · rw [hcp]
    exact (hasMatch_iff_decomp h0 hw _).mpr
      ⟨[], "inc_dec_cp".toList, [], by simp, Or.inr (Or.inl rfl), rfl⟩
  · rw [hcp, subScan_decomp nw [] h0 hw (Or.inr (Or.inl rfl)) (show headIsWord [] = false from rfl) (by simp)]
    simp [subScan_nil]
  · rw [h2]
    exact (hasMatch_iff_decomp h0 hw _).mpr
      ⟨[], "kp".toList, [], by simp, Or.inr (Or.inr ⟨by decide, by decide⟩), rfl⟩
  · rw [h2, subScan_decomp nw [] h0 hw (Or.inr (Or.inr ⟨by decide, by decide⟩)) (show headIsWord [] = false from rfl) (by simp)]
    simp [subScan_nil]

/-- C9 witness: the three rewrites instantiated at `OLD → NEW`. -/
theorem C9_inc_dec_witness :
    (hasMatch "OLD".toList ("&inc_dec_kp ".toList ++ "OLD".toList) = true
      ∧ subScan "OLD".toList "NEW".toList ("&inc_dec_kp ".toList ++ "OLD".toList)
          = "&inc_dec_kp ".toList ++ "NEW".toList)
    ∧ (hasMatch "OLD".toList ("&inc_dec_cp ".toList ++ "OLD".toList) = true
      ∧ subScan "OLD".toList "NEW".toList ("&inc_dec_cp ".toList ++ "OLD".toList)
          = "&inc_dec_cp ".toList ++ "NEW".toList)
    ∧ (hasMatch "OLD".toList ("&kp ".toList ++ "OLD".toList) = true
      ∧ subScan "OLD".toList "NEW".toList ("&kp ".toList ++ "OLD".toList)
          = "&kp ".toList ++ "NEW".toList) :=
  C9_inc_dec_thm "OLD".toList "NEW".toList (by decide) (by decide)

/-- C10: for a nonempty old token of word characters, a line matches exactly
when the token appears immediately after an anchor and its single space — so
an occurrence in any later argument position is never matched, as in
`&mt MOD OLD`, which a substitution for OLD leaves unchanged. -/
theorem C10_argument_position_thm :
    (∀ old : List Char, old ≠ [] → (∀ c ∈ old, isWordChar c = true) →
        ∀ l : List Char,
        hasMatch old l = true ↔
          ∃ pre a post, l = pre ++ '&' :: (a ++ ' ' :: (old ++ post))
            ∧ validAnchor a ∧ headIsWord post = false)
    ∧ hasMatch "OLD".toList "&mt MOD OLD".toList = false
    ∧ (format_file false "a.keymap".toList "&mt MOD OLD".toList
          [("OLD".toList, some "NEW".toList)]).written = "&mt MOD OLD".toList := by
  refine ⟨?_, by decide, by decide⟩
  intro old h0 hw l
  exact hasMatch_iff_decomp h0 hw l

/-- C10 witness: the characterization instantiated at the token OLD and the
line `&kp OLD`. -/
theorem C10_argument_position_witness :
    hasMatch "OLD".toList "&kp OLD".toList = true ↔
      ∃ pre a post, "&kp OLD".toList = pre ++ '&' :: (a ++ ' ' :: ("OLD".toList ++ post))
        ∧ validAnchor a ∧ headIsWord post = false :=
  C10_argument_position_thm.1 "OLD".toList (by decide) (by decide) "&kp OLD".toList
